import Mathlib

/-!
Shallow embedding of `tally_extractor.py`: a script that scans `.mctal`
text files, extracts tally names, energy values, statistical errors,
the MCNP version and the particle count, and aggregates them into one
table.  Python strings are modelled by `String` (operating on `.data :
List Char`, ASCII fragment), fallible operations (list indexing,
`float(...)`, `pd.DataFrame` construction) by `Option`.
-/

/-- ASCII whitespace recognised by Python's `str.strip`, `str.split`
and the regex class `\s` (the characters of `' \t\n\r\x0b\x0c'`). -/
def isPySpace (c : Char) : Bool :=
  c = ' ' || c = '\t' || c = '\n' || c = '\r' || c = '\x0b' || c = '\x0c'

/-- ASCII decimal digit, the class `\d` on ASCII input. -/
def isAsciiDigit (c : Char) : Bool :=
  '0' ≤ c && c ≤ '9'

/-- Drop trailing characters satisfying `p`. -/
def dropTrailingWhile (p : Char → Bool) (l : List Char) : List Char :=
  ((l.reverse.dropWhile p).reverse)

/-- Characters of Python `str.strip()`: leading and trailing whitespace
removed. -/
def stripChars (l : List Char) : List Char :=
  dropTrailingWhile isPySpace (l.dropWhile isPySpace)

/-- Python `str.strip()`. -/
def pyStrip (s : String) : String :=
  String.mk (stripChars s.data)

/-- Accumulator loop of Python `str.split()` with no argument: split on
runs of whitespace, discarding empty tokens. -/
def splitAux : List Char → List Char → List (List Char)
  | [], acc => if acc = [] then [] else [acc.reverse]
  | c :: cs, acc =>
    if isPySpace c then
      if acc = [] then splitAux cs [] else acc.reverse :: splitAux cs []
    else splitAux cs (c :: acc)

/-- Python `str.split()` with no argument. -/
def pySplit (s : String) : List String :=
  (splitAux s.data []).map String.mk

/-- Line normalisation of the script:
`[line.strip() for line in file_lines if line.strip()]`. -/
def remove_blank_lines (file_lines : List String) : List String :=
  (file_lines.filter (fun l => pyStrip l != "")).map pyStrip

/-- Indices (starting at `k`) of the elements satisfying `p`, the
index part of Python `enumerate` filtered by a predicate. -/
def idxWhere (p : α → Bool) : List α → Nat → List Nat
  | [], _ => []
  | a :: tl, k => if p a then k :: idxWhere p tl (k + 1) else idxWhere p tl (k + 1)

/-- Sequence a list of `Option`s: a Python list comprehension whose body
may raise, `none` standing for the raised exception. -/
def seqOpt : List (Option α) → Option (List α)
  | [] => some []
  | o :: rest =>
    match o with
    | none => none
    | some a =>
      match seqOpt rest with
      | none => none
      | some as => some (a :: as)

/-- Does `l` start with `pat`? -/
def startsWithChars : List Char → List Char → Bool
  | [], _ => true
  | _ :: _, [] => false
  | p :: ps, c :: cs => p = c && startsWithChars ps cs

/-- Python's `pat in s` substring test. -/
def hasSubstr (pat : List Char) : List Char → Bool
  | [] => startsWithChars pat []
  | c :: rest => startsWithChars pat (c :: rest) || hasSubstr pat rest

/-- A normalized line matching the tally-name marker: `'tally' in line`. -/
def hasTallyB (l : String) : Bool :=
  hasSubstr "tally".data l.data

/-- A normalized line matching the value marker: `line == 'vals'`. -/
def isValsB (l : String) : Bool :=
  l == "vals"

/-- Source `extract_tally_names`:
`[file_lines[i + 2] for i, line in enumerate(file_lines) if 'tally' in line]`;
`none` models the `IndexError` when some `i + 2` is out of range. -/
def extract_tally_names (file_lines : List String) : Option (List String) :=
  seqOpt ((idxWhere hasTallyB file_lines 0).map (fun i => file_lines.get? (i + 2)))

/-- Source `extract_tally_values`:
`[file_lines[i + 1] for i, line in enumerate(file_lines) if line == 'vals']`;
`none` models the `IndexError` when some `i + 1` is out of range. -/
def extract_tally_values (file_lines : List String) : Option (List String) :=
  seqOpt ((idxWhere isValsB file_lines 0).map (fun i => file_lines.get? (i + 1)))

/-- Source `extract_energies`: `[value.split()[0] for value in tally_values]`;
`none` models the `IndexError` on a value with no tokens. -/
def extract_energies (tally_values : List String) : Option (List String) :=
  seqOpt (tally_values.map (fun v => (pySplit v).head?))

/-- Source `extract_errors`: `[value.split()[-1] for value in tally_values]`;
`none` models the `IndexError` on a value with no tokens. -/
def extract_errors (tally_values : List String) : Option (List String) :=
  seqOpt (tally_values.map (fun v => (pySplit v).getLast?))

/-- Match of the regex `mcnp\s+6` at the head of `l`: the four letters
`mcnp`, a maximal non-empty whitespace run, then `6` (on an already
lowercased line, modelling `re.IGNORECASE` for ASCII input). -/
def mcnp6At (l : List Char) : Bool :=
  startsWithChars "mcnp".data l &&
    (let rest := l.drop 4
     let w := (rest.takeWhile isPySpace).length
     decide (1 ≤ w) &&
       (match rest.get? w with
        | some c => c = '6'
        | none => false))

/-- Scan of `re.search(r"mcnp\s+6", line, re.IGNORECASE)`: does some
suffix match? -/
def searchMcnp6 : List Char → Bool
  | [] => mcnp6At []
  | c :: rest => mcnp6At (c :: rest) || searchMcnp6 rest

/-- Source `extract_version`: inspect `file_lines[0]` only; `none`
models the `IndexError` on an empty line sequence.  The two
`re.IGNORECASE` searches are modelled by lowercasing the line (ASCII). -/
def extract_version (file_lines : List String) : Option String :=
  match file_lines with
  | [] => none
  | first :: _ =>
    let low := first.data.map Char.toLower
    if hasSubstr "mcnpx".data low then some "MCNPX"
    else if searchMcnp6 low then some "MCNP6"
    else some "Version not found"

/-- Match of the regex `\s(\d{8,11})\s` at the head of `l`: a whitespace
character, then the maximal digit run (which backtracking forces the
group to consume whole), of length 8 to 11, then a whitespace
character; returns the captured digit run. -/
def npsAt (l : List Char) : Option (List Char) :=
  match l with
  | [] => none
  | c :: rest =>
    if isPySpace c then
      let ds := rest.takeWhile isAsciiDigit
      if 8 ≤ ds.length ∧ ds.length ≤ 11 then
        match rest.get? ds.length with
        | some c2 => if isPySpace c2 then some ds else none
        | none => none
      else none
    else none

/-- Scan of `re.search(r"\s(\d{8,11})\s", line)`: the group of the
leftmost match, if any. -/
def searchNPS : List Char → Option (List Char)
  | [] => none
  | c :: rest =>
    match npsAt (c :: rest) with
    | some ds => some ds
    | none => searchNPS rest

/-- Source `extract_particles`: search `file_lines[0]` for the particle
count; `none` models the `IndexError` on an empty line sequence. -/
def extract_particles (file_lines : List String) : Option String :=
  match file_lines with
  | [] => none
  | first :: _ =>
    match searchNPS first.data with
    | some ds => some ("NPS: " ++ String.mk ds)
    | none => some "Particles not found"

/-- Consume the continuation of a Python `digitpart` after its first
digit: further digits, with single underscores allowed between digits;
returns the unconsumed remainder. -/
def digitTail : List Char → List Char
  | [] => []
  | c :: rest =>
    if isAsciiDigit c then digitTail rest
    else if c = '_' then
      match rest with
      | [] => c :: rest
      | d :: rest2 => if isAsciiDigit d then digitTail rest2 else c :: rest
    else c :: rest

/-- Consume a Python `digitpart` (`digit (["_"] digit)*`); `none` when
the input does not start with a digit. -/
def parseDigitPart (l : List Char) : Option (List Char) :=
  match l with
  | c :: rest => if isAsciiDigit c then some (digitTail rest) else none
  | [] => none

/-- Consume a float exponent: `e` or `E`, an optional sign, a
`digitpart`. -/
def parseExp (l : List Char) : Option (List Char) :=
  match l with
  | c :: rest =>
    if c = 'e' ∨ c = 'E' then
      match rest with
      | s :: rest2 => if s = '+' ∨ s = '-' then parseDigitPart rest2 else parseDigitPart rest
      | [] => parseDigitPart rest
    else none
  | [] => none

/-- The remainder after a mantissa: nothing, or an exponent consuming
everything. -/
def optExpEnd (l : List Char) : Bool :=
  l = [] ||
    (match parseExp l with
     | some r => r = []
     | none => false)

/-- The remainder after an integer part: nothing, a fraction (dot with
optional `digitpart`) with optional exponent, or an exponent. -/
def parseFrac (l : List Char) : Bool :=
  match l with
  | '.' :: rest =>
    (match parseDigitPart rest with
     | some r => optExpEnd r
     | none => optExpEnd rest)
  | _ => optExpEnd l

/-- An unsigned float body: `inf`, `infinity`, `nan` (case-insensitive)
or a decimal number per Python's grammar. -/
def pyFloatUnsigned (l : List Char) : Bool :=
  let low := l.map Char.toLower
  if low = "inf".data ∨ low = "infinity".data ∨ low = "nan".data then true
  else
    match l with
    | '.' :: rest =>
      (match parseDigitPart rest with
       | some r => optExpEnd r
       | none => false)
    | _ =>
      (match parseDigitPart l with
       | some r => parseFrac r
       | none => false)

/-- Acceptance of Python's `float(s)` on ASCII input: surrounding
whitespace stripped, optional sign, then an unsigned float body. -/
def isPyFloatLit (s : String) : Bool :=
  match stripChars s.data with
  | [] => false
  | c :: rest =>
    if c = '+' ∨ c = '-' then pyFloatUnsigned rest else pyFloatUnsigned (c :: rest)

/-- Python's `float(t)` on a token.  The produced float is represented
by its accepted source literal: no claim depends on the numeric value,
only on whether the conversion raises (`none`). -/
def pyFloat (t : String) : Option String :=
  if isPyFloatLit t then some t else none

/-- A cell of the per-file table: a header string or a converted float
(represented by its source literal). -/
inductive Cell where
  | ofStr : String → Cell
  | ofFloat : String → Cell
deriving DecidableEq

/-- The per-file three-column table. -/
structure DataFrame where
  names : List Cell
  values : List Cell
  errors : List Cell
deriving DecidableEq

/-- Construction `pd.DataFrame({'Names': ..., 'Values': ..., 'Errors': ...})`:
`none` models the `ValueError` raised when the columns have unequal
lengths. -/
def mkDataFrame (ns vs es : List Cell) : Option DataFrame :=
  if ns.length = vs.length ∧ ns.length = es.length then some ⟨ns, vs, es⟩ else none

/-- Characters of `os.path.splitext(file)[0]` for a file name with no
path separator: cut at the last dot, unless every character before it
is a dot. -/
def splitextBase (name : String) : String :=
  match (idxWhere (fun c => c = '.') name.data 0).getLast? with
  | none => name
  | some p =>
    if (name.data.take p).any (fun c => c ≠ '.') then String.mk (name.data.take p)
    else name

/-- Python `str.endswith`. -/
def strEndsWith (s suf : String) : Bool :=
  decide (suf.data.length ≤ s.data.length) &&
    decide (s.data.drop (s.data.length - suf.data.length) = suf.data)

/-- Loop body of `process_files` for one file: normalise the lines,
extract the metadata, names, values, energies and errors (converting
tokens with `float`), prepend the header cells, and build the per-file
table.  `none` models any exception raised while processing the file. -/
def process_one_file (file : String) (raw_lines : List String) : Option DataFrame :=
  let file_lines := remove_blank_lines raw_lines
  let file_name := splitextBase file
  (extract_version file_lines).bind (fun mcnp_version =>
  (extract_particles file_lines).bind (fun particle_count =>
  (extract_tally_values file_lines).bind (fun tally_values =>
  (extract_tally_names file_lines).bind (fun tally_names =>
  (extract_energies tally_values).bind (fun energyToks =>
  (seqOpt (energyToks.map pyFloat)).bind (fun energies =>
  (extract_errors tally_values).bind (fun errorToks =>
  (seqOpt (errorToks.map pyFloat)).bind (fun errors =>
  mkDataFrame (Cell.ofStr file_name :: tally_names.map Cell.ofStr)
              (Cell.ofStr mcnp_version :: energies.map Cell.ofFloat)
              (Cell.ofStr particle_count :: errors.map Cell.ofFloat)))))))))

/-- Python string `≤`: lexicographic on character code points. -/
def charListLe : List Char → List Char → Bool
  | [], _ => true
  | _ :: _, [] => false
  | a :: as, b :: bs => if a = b then charListLe as bs else decide (a < b)

/-- Insertion step of `sorted` over (file name, raw lines) pairs. -/
def insertFile (x : String × List String) :
    List (String × List String) → List (String × List String)
  | [] => [x]
  | y :: rest => if charListLe x.1.data y.1.data then x :: y :: rest else y :: insertFile x rest

/-- Python `sorted` by file name (lexicographic on code points). -/
def sortFiles : List (String × List String) → List (String × List String)
  | [] => []
  | x :: rest => insertFile x (sortFiles rest)

/-- Source `process_files` over a directory listing given as (file
name, raw lines) pairs: keep the `.mctal` files, sort them by name, and
process each in turn.  `some dfs` models the run reaching the final
`to_excel` export with the per-file tables `dfs` concatenated
column-wise; `none` models an exception aborting the run before any
output file is written. -/
def process_files (dir_files : List (String × List String)) : Option (List DataFrame) :=
  seqOpt ((sortFiles (dir_files.filter (fun f => strEndsWith f.1 ".mctal"))).map
    (fun f => process_one_file f.1 f.2))

/-- A case-insensitive occurrence of `mcnpx` in a line, stated as a
decomposition of the lowercased characters. -/
def mcnpxSpec (s : String) : Prop :=
  ∃ pre post, s.data.map Char.toLower = pre ++ ("mcnpx".data ++ post)

/-- A case-insensitive occurrence of `mcnp`, one or more whitespace
characters, then `6`, stated as a decomposition of the lowercased
characters. -/
def mcnp6Spec (s : String) : Prop :=
  ∃ pre ws post, s.data.map Char.toLower = pre ++ ("mcnp".data ++ (ws ++ '6' :: post)) ∧
    ws ≠ [] ∧ ws.all isPySpace = true

/-- A digit run `ds` of length 8 to 11 occurring in `l` with a
whitespace character immediately before it and immediately after it. -/
def flankedIn (l : List Char) (ds : List Char) : Prop :=
  ∃ pre c c2 post, l = pre ++ c :: (ds ++ c2 :: post) ∧ isPySpace c = true ∧
    isPySpace c2 = true ∧ ds.all isAsciiDigit = true ∧ 8 ≤ ds.length ∧ ds.length ≤ 11

theorem seqOpt_length {α : Type} {l : List (Option α)} {r : List α}
    (h : seqOpt l = some r) : r.length = l.length := by
  induction l generalizing r with
  | nil => simp [seqOpt] at h; simp [← h]
  | cons o rest ih =>
    cases o with
    | none => simp [seqOpt] at h
    | some a =>
      simp only [seqOpt] at h
      cases hrest : seqOpt rest with
      | none => rw [hrest] at h; simp at h
      | some as =>
        rw [hrest] at h
        simp only [Option.some.injEq] at h
        subst h
        simp [ih hrest]

theorem seqOpt_eq_none_of_mem {α : Type} {l : List (Option α)}
    (h : none ∈ l) : seqOpt l = none := by
  induction l with
  | nil => simp at h
  | cons o rest ih =>
    rcases List.mem_cons.mp h with h1 | h2
    · simp [seqOpt, ← h1]
    · cases o with
      | none => simp [seqOpt]
      | some a => simp [seqOpt, ih h2]

theorem seqOpt_isSome_of_all {α : Type} {l : List (Option α)}
    (h : ∀ o ∈ l, o.isSome = true) : ∃ r, seqOpt l = some r := by
  induction l with
  | nil => exact ⟨[], rfl⟩
  | cons o rest ih =>
    obtain ⟨a, ha⟩ := Option.isSome_iff_exists.mp (h o (List.mem_cons_self o rest))
    obtain ⟨r, hr⟩ := ih (fun x hx => h x (List.mem_cons_of_mem o hx))
    exact ⟨a :: r, by simp [seqOpt, ha, hr]⟩

theorem mem_idxWhere {α : Type} {p : α → Bool} {l : List α} {k j : Nat} :
    j ∈ idxWhere p l k ↔ ∃ m x, l.get? m = some x ∧ p x = true ∧ j = m + k := by
  induction l generalizing k with
  | nil => simp [idxWhere]
  | cons a tl ih =>
    simp only [idxWhere]
    constructor
    · intro hj
      by_cases hpa : p a
      · rw [if_pos hpa] at hj
        rcases List.mem_cons.mp hj with h1 | h2
        · exact ⟨0, a, rfl, hpa, by omega⟩
        · obtain ⟨m, x, hget, hpx, hjm⟩ := ih.mp h2
          exact ⟨m + 1, x, hget, hpx, by omega⟩
      · rw [if_neg hpa] at hj
        obtain ⟨m, x, hget, hpx, hjm⟩ := ih.mp hj
        exact ⟨m + 1, x, hget, hpx, by omega⟩
    · rintro ⟨m, x, hget, hpx, hjm⟩
      cases m with
      | zero =>
        simp only [List.get?] at hget
        obtain rfl : a = x := by simpa using hget
        subst hjm
        simp [hpx]
      | succ m0 =>
        simp only [List.get?] at hget
        have hmem : j ∈ idxWhere p tl (k + 1) := ih.mpr ⟨m0, x, hget, hpx, by omega⟩
        by_cases hpa : p a
        · rw [if_pos hpa]; exact List.mem_cons_of_mem _ hmem
        · rw [if_neg hpa]; exact hmem

theorem length_idxWhere {α : Type} {p : α → Bool} (l : List α) (k : Nat) :
    (idxWhere p l k).length = (l.filter p).length := by
  induction l generalizing k with
  | nil => simp [idxWhere]
  | cons a tl ih =>
    by_cases hpa : p a
    · simp [idxWhere, hpa, List.filter_cons, ih]
    · simp [idxWhere, hpa, List.filter_cons, ih]

theorem dropWhile_head_false {p : Char → Bool} {l : List Char} {c : Char} {r : List Char}
    (h : l.dropWhile p = c :: r) : p c = false := by
  induction l with
  | nil => simp [List.dropWhile] at h
  | cons a tl ih =>
    by_cases hpa : p a = true
    · rw [List.dropWhile_cons, if_pos hpa] at h
      exact ih h
    · rw [List.dropWhile_cons, if_neg hpa] at h
      obtain ⟨rfl, -⟩ : a = c ∧ tl = r := by simpa using h
      simpa using hpa

theorem dw_idem (p : Char → Bool) (l : List Char) :
    (l.dropWhile p).dropWhile p = l.dropWhile p := by
  cases h : l.dropWhile p with
  | nil => simp
  | cons c r =>
    rw [List.dropWhile_cons, dropWhile_head_false h]
    simp

theorem dw_eq_drop (p : Char → Bool) (l : List Char) : ∃ n, l.dropWhile p = l.drop n := by
  induction l with
  | nil => exact ⟨0, rfl⟩
  | cons a tl ih =>
    by_cases hpa : p a = true
    · obtain ⟨n, hn⟩ := ih
      exact ⟨n + 1, by rw [List.dropWhile_cons, if_pos hpa, hn]; rfl⟩
    · exact ⟨0, by rw [List.dropWhile_cons, if_neg hpa]; rfl⟩

theorem dt_prefix (p : Char → Bool) (l : List Char) :
    ∃ s, l = dropTrailingWhile p l ++ s := by
  obtain ⟨n, hn⟩ := dw_eq_drop p l.reverse
  refine ⟨(l.reverse.take n).reverse, ?_⟩
  calc l = l.reverse.reverse := (List.reverse_reverse l).symm
  _ = (l.reverse.take n ++ l.reverse.drop n).reverse := by rw [List.take_append_drop]
  _ = (l.reverse.drop n).reverse ++ (l.reverse.take n).reverse := by rw [List.reverse_append]
  _ = dropTrailingWhile p l ++ (l.reverse.take n).reverse := by
      rw [dropTrailingWhile, hn]

theorem dt_idem (p : Char → Bool) (l : List Char) :
    dropTrailingWhile p (dropTrailingWhile p l) = dropTrailingWhile p l := by
  unfold dropTrailingWhile
  rw [List.reverse_reverse, dw_idem]

theorem dw_dt (p : Char → Bool) (m : List Char) (hm : m.dropWhile p = m) :
    (dropTrailingWhile p m).dropWhile p = dropTrailingWhile p m := by
  obtain ⟨s, hs⟩ := dt_prefix p m
  cases hdt : dropTrailingWhile p m with
  | nil => simp
  | cons c r =>
    rw [hdt] at hs
    have hhead : p c = false :=
      dropWhile_head_false (show m.dropWhile p = c :: (r ++ s) by rw [hm, hs]; rfl)
    simp [hhead]

theorem stripChars_idem (l : List Char) : stripChars (stripChars l) = stripChars l := by
  unfold stripChars
  rw [dw_dt isPySpace (l.dropWhile isPySpace) (dw_idem isPySpace l), dt_idem]

theorem pyStrip_idem (s : String) : pyStrip (pyStrip s) = pyStrip s := by
  show String.mk (stripChars (String.mk (stripChars s.data)).data) = _
  exact congrArg String.mk (stripChars_idem s.data)

theorem rbl_fixed {l : List String} (h : ∀ x ∈ l, pyStrip x = x ∧ x ≠ "") :
    remove_blank_lines l = l := by
  induction l with
  | nil => rfl
  | cons a tl ih =>
    obtain ⟨ha1, ha2⟩ := h a (List.mem_cons_self a tl)
    have hcond : (pyStrip a != "") = true := by
      rw [ha1]
      simpa using ha2
    have htl : remove_blank_lines tl = tl := ih (fun x hx => h x (List.mem_cons_of_mem a hx))
    show ((a :: tl).filter (fun l => pyStrip l != "")).map pyStrip = a :: tl
    rw [List.filter_cons, if_pos hcond, List.map_cons, ha1]
    exact congrArg (a :: ·) htl

theorem startsWithChars_iff (pat : List Char) : ∀ l : List Char,
    startsWithChars pat l = true ↔ ∃ post, l = pat ++ post := by
  induction pat with
  | nil =>
    intro l
    constructor
    · intro _; exact ⟨l, rfl⟩
    · intro _; rfl
  | cons p ps ih =>
    intro l
    cases l with
    | nil =>
      constructor
      · intro h; simp [startsWithChars] at h
      · rintro ⟨post, hpost⟩; simp at hpost
    | cons c cs =>
      constructor
      · intro h
        simp only [startsWithChars, Bool.and_eq_true, decide_eq_true_eq] at h
        obtain ⟨rfl, h2⟩ := h
        obtain ⟨post, rfl⟩ := (ih cs).mp h2
        exact ⟨post, rfl⟩
      · rintro ⟨post, hpost⟩
        simp only [List.cons_append, List.cons.injEq] at hpost
        obtain ⟨rfl, rfl⟩ := hpost
        simp only [startsWithChars, Bool.and_eq_true, decide_eq_true_eq]
        exact ⟨by trivial, (ih _).mpr ⟨post, rfl⟩⟩

theorem hasSubstr_iff (pat : List Char) : ∀ l : List Char,
    hasSubstr pat l = true ↔ ∃ pre post, l = pre ++ (pat ++ post) := by
  intro l
  induction l with
  | nil =>
    show startsWithChars pat [] = true ↔ _
    rw [startsWithChars_iff]
    constructor
    · rintro ⟨post, hpost⟩; exact ⟨[], post, hpost⟩
    · rintro ⟨pre, post, hpost⟩
      exact ⟨post, by rcases List.append_eq_nil.mp hpost.symm with ⟨rfl, h2⟩; simpa using h2.symm⟩
  | cons c cs ih =>
    simp only [hasSubstr, Bool.or_eq_true]
    constructor
    · rintro (h1 | h2)
      · obtain ⟨post, hpost⟩ := (startsWithChars_iff pat _).mp h1
        exact ⟨[], post, hpost⟩
      · obtain ⟨pre, post, hpost⟩ := ih.mp h2
        exact ⟨c :: pre, post, by rw [hpost]; rfl⟩
    · rintro ⟨pre, post, hpost⟩
      cases pre with
      | nil =>
        exact Or.inl ((startsWithChars_iff pat _).mpr ⟨post, by simpa using hpost⟩)
      | cons p0 pr =>
        simp only [List.cons_append, List.cons.injEq] at hpost
        exact Or.inr (ih.mpr ⟨pr, post, hpost.2⟩)

theorem takeWhile_runEnd {p : Char → Bool} :
    ∀ (ds : List Char) (c : Char) (post : List Char), (∀ d ∈ ds, p d = true) → p c = false →
      (ds ++ c :: post).takeWhile p = ds := by
  intro ds c post hds hc
  induction ds with
  | nil => simp [hc]
  | cons d dr ih =>
    have hd : p d = true := hds d (List.mem_cons_self d dr)
    rw [List.cons_append, List.takeWhile_cons_of_pos hd,
      ih (fun x hx => hds x (List.mem_cons_of_mem d hx))]

theorem mcnp6At_iff (l : List Char) :
    mcnp6At l = true ↔
      ∃ ws post, l = "mcnp".data ++ (ws ++ '6' :: post) ∧ ws ≠ [] ∧ ws.all isPySpace = true := by
  constructor
  · intro h
    simp only [mcnp6At, Bool.and_eq_true, decide_eq_true_eq] at h
    obtain ⟨h1, h2, h3⟩ := h
    obtain ⟨rest0, hl⟩ := (startsWithChars_iff _ _).mp h1
    have hdrop : l.drop 4 = rest0 := by rw [hl]; exact List.drop_left' rfl
    rw [hdrop] at h2 h3
    set ws := rest0.takeWhile isPySpace with hws
    have hsplit : ws ++ rest0.dropWhile isPySpace = rest0 := by
      rw [hws]
      exact List.takeWhile_append_dropWhile isPySpace rest0
    have hget : rest0.get? ws.length = (rest0.dropWhile isPySpace).get? 0 := by
      conv_lhs => rw [← hsplit]
      rw [List.get?_append_right (Nat.le_refl _), Nat.sub_self]
    rw [hget] at h3
    cases hdw : rest0.dropWhile isPySpace with
    | nil => rw [hdw] at h3; simp at h3
    | cons c6 post =>
      rw [hdw] at h3
      simp only [List.get?] at h3
      obtain rfl : c6 = '6' := by
        cases h3' : (some c6 : Option Char) with
        | none => simp at h3'
        | some x => simpa using h3
      refine ⟨ws, post, ?_, ?_, List.all_takeWhile⟩
      · rw [hl, ← hsplit, hdw]
      · intro hnil
        rw [hnil] at h2
        simp at h2
  · rintro ⟨ws, post, hl, hne, hall⟩
    have h1 : startsWithChars "mcnp".data l = true :=
      (startsWithChars_iff _ _).mpr ⟨ws ++ '6' :: post, hl⟩
    have hdrop : l.drop 4 = ws ++ '6' :: post := by rw [hl]; exact List.drop_left' rfl
    have htw : (ws ++ '6' :: post).takeWhile isPySpace = ws :=
      takeWhile_runEnd ws '6' post (fun d hd => by
        exact List.all_eq_true.mp hall d hd) (by decide)
    have hget : (ws ++ '6' :: post).get? ws.length = some '6' := by
      rw [List.get?_append_right (Nat.le_refl _), Nat.sub_self]
      rfl
    simp only [mcnp6At, Bool.and_eq_true, decide_eq_true_eq]
    refine ⟨h1, ?_, ?_⟩
    · rw [hdrop, htw]
      exact List.length_pos.mpr hne
    · rw [hdrop, htw, hget]
      simp

theorem searchMcnp6_iff : ∀ l : List Char,
    searchMcnp6 l = true ↔
      ∃ pre ws post, l = pre ++ ("mcnp".data ++ (ws ++ '6' :: post)) ∧ ws ≠ [] ∧
        ws.all isPySpace = true := by
  intro l
  induction l with
  | nil =>
    show mcnp6At [] = true ↔ _
    rw [mcnp6At_iff]
    constructor
    · rintro ⟨ws, post, habs, -, -⟩
      exact absurd habs.symm (by simp)
    · rintro ⟨pre, ws, post, habs, -, -⟩
      exact absurd habs.symm (by simp)
  | cons c cs ih =>
    simp only [searchMcnp6, Bool.or_eq_true]
    constructor
    · rintro (h1 | h2)
      · obtain ⟨ws, post, hl, hne, hall⟩ := (mcnp6At_iff _).mp h1
        exact ⟨[], ws, post, by simpa using hl, hne, hall⟩
      · obtain ⟨pre, ws, post, hl, hne, hall⟩ := ih.mp h2
        exact ⟨c :: pre, ws, post, by rw [hl]; rfl, hne, hall⟩
    · rintro ⟨pre, ws, post, hl, hne, hall⟩
      cases pre with
      | nil =>
        exact Or.inl ((mcnp6At_iff _).mpr ⟨ws, post, by simpa using hl, hne, hall⟩)
      | cons p0 pr =>
        simp only [List.cons_append, List.cons.injEq] at hl
        exact Or.inr (ih.mpr ⟨pr, ws, post, hl.2, hne, hall⟩)

theorem space_not_digit {c : Char} (h : isPySpace c = true) : isAsciiDigit c = false := by
  simp only [isPySpace, Bool.or_eq_true, decide_eq_true_eq] at h
  rcases h with ((((rfl | rfl) | rfl) | rfl) | rfl) | rfl <;> decide

theorem npsAt_some {l ds : List Char} (h : npsAt l = some ds) :
    ∃ c c2 post, l = c :: (ds ++ c2 :: post) ∧ isPySpace c = true ∧ isPySpace c2 = true ∧
      ds.all isAsciiDigit = true ∧ 8 ≤ ds.length ∧ ds.length ≤ 11 := by
  cases l with
  | nil => simp [npsAt] at h
  | cons c rest =>
    simp only [npsAt] at h
    by_cases hsp : isPySpace c = true
    · rw [if_pos hsp] at h
      set ds0 := rest.takeWhile isAsciiDigit with hds0
      by_cases hb : 8 ≤ ds0.length ∧ ds0.length ≤ 11
      · rw [if_pos hb] at h
        cases hget : rest.get? ds0.length with
        | none => rw [hget] at h; simp at h
        | some c2 =>
          rw [hget] at h
          have h2 : (if isPySpace c2 = true then some ds0 else none) = some ds := h
          by_cases hc2 : isPySpace c2 = true
          · rw [if_pos hc2] at h2
            obtain rfl : ds0 = ds := by simpa using h2
            have hsplit : ds0 ++ rest.dropWhile isAsciiDigit = rest := by
              rw [hds0]
              exact List.takeWhile_append_dropWhile isAsciiDigit rest
            have hget2 : (rest.dropWhile isAsciiDigit).get? 0 = some c2 := by
              rw [← hget]
              conv_rhs => rw [← hsplit]
              rw [List.get?_append_right (Nat.le_refl _), Nat.sub_self]
            cases hdw : rest.dropWhile isAsciiDigit with
            | nil => rw [hdw] at hget2; simp at hget2
            | cons x post =>
              rw [hdw] at hget2
              obtain rfl : x = c2 := by simpa using hget2
              refine ⟨c, x, post, ?_, hsp, hc2, ?_, hb.1, hb.2⟩
              · rw [← hsplit, hdw]
              · rw [hds0]
                exact List.all_takeWhile
          · rw [if_neg hc2] at h2; simp at h2
      · rw [if_neg hb] at h; simp at h
    · rw [if_neg hsp] at h; simp at h

theorem npsAt_eq_some_of {c c2 : Char} {ds post : List Char} (hc : isPySpace c = true)
    (hc2 : isPySpace c2 = true) (hall : ds.all isAsciiDigit = true) (h8 : 8 ≤ ds.length)
    (h11 : ds.length ≤ 11) : npsAt (c :: (ds ++ c2 :: post)) = some ds := by
  have htw : (ds ++ c2 :: post).takeWhile isAsciiDigit = ds :=
    takeWhile_runEnd ds c2 post (fun d hd => List.all_eq_true.mp hall d hd)
      (space_not_digit hc2)
  have hget : (ds ++ c2 :: post).get? ds.length = some c2 := by
    rw [List.get?_append_right (Nat.le_refl _), Nat.sub_self]
    rfl
  simp only [npsAt, htw, hget]
  rw [if_pos hc, if_pos ⟨h8, h11⟩, if_pos hc2]

theorem searchNPS_some : ∀ {l ds : List Char}, searchNPS l = some ds → flankedIn l ds := by
  intro l
  induction l with
  | nil => intro ds h; simp [searchNPS] at h
  | cons c rest ih =>
    intro ds h
    simp only [searchNPS] at h
    cases hat : npsAt (c :: rest) with
    | some ds0 =>
      rw [hat] at h
      obtain rfl : ds0 = ds := by simpa using h
      obtain ⟨c0, c2, post, heq, hc0, hc2, hall, h8, h11⟩ := npsAt_some hat
      exact ⟨[], c0, c2, post, by simpa using heq, hc0, hc2, hall, h8, h11⟩
    | none =>
      rw [hat] at h
      obtain ⟨pre, c0, c2, post, heq, hc0, hc2, hall, h8, h11⟩ := ih h
      exact ⟨c :: pre, c0, c2, post, by rw [heq]; rfl, hc0, hc2, hall, h8, h11⟩

theorem searchNPS_isSome_of : ∀ {l ds : List Char}, flankedIn l ds →
    (searchNPS l).isSome = true := by
  intro l
  induction l with
  | nil =>
    rintro ds ⟨pre, c, c2, post, heq, -⟩
    exact absurd heq.symm (by simp)
  | cons a rest ih =>
    rintro ds ⟨pre, c, c2, post, heq, hc, hc2, hall, h8, h11⟩
    cases pre with
    | nil =>
      simp only [List.nil_append, List.cons.injEq] at heq
      obtain ⟨rfl, rfl⟩ := heq
      simp only [searchNPS, npsAt_eq_some_of hc hc2 hall h8 h11]
      rfl
    | cons p0 pr =>
      simp only [List.cons_append, List.cons.injEq] at heq
      have hrest : (searchNPS rest).isSome = true :=
        ih ⟨pr, c, c2, post, heq.2, hc, hc2, hall, h8, h11⟩
      simp only [searchNPS]
      cases hat : npsAt (a :: rest) with
      | some ds0 => rfl
      | none => exact hrest

theorem extract_version_cons_ne_none (first : String) (rest : List String) :
    extract_version (first :: rest) ≠ none := by
  simp only [extract_version]
  split
  · simp
  · split <;> simp

theorem extract_particles_cons_ne_none (first : String) (rest : List String) :
    extract_particles (first :: rest) ≠ none := by
  simp only [extract_particles]
  split <;> simp

theorem mkDataFrame_some {ns vs es : List Cell} {df : DataFrame}
    (h : mkDataFrame ns vs es = some df) :
    df.names = ns ∧ df.values = vs ∧ df.errors = es ∧ ns.length = vs.length ∧
      ns.length = es.length := by
  by_cases hc : ns.length = vs.length ∧ ns.length = es.length
  · rw [mkDataFrame, if_pos hc] at h
    obtain rfl : (⟨ns, vs, es⟩ : DataFrame) = df := by simpa using h
    exact ⟨rfl, rfl, rfl, hc.1, hc.2⟩
  · rw [mkDataFrame, if_neg hc] at h
    simp at h

theorem extract_tally_names_length {ls : List String} {tns : List String}
    (h : extract_tally_names ls = some tns) : tns.length = (ls.filter hasTallyB).length := by
  have h1 := seqOpt_length h
  rw [List.length_map, length_idxWhere] at h1
  exact h1

theorem extract_tally_values_length {ls : List String} {tvs : List String}
    (h : extract_tally_values ls = some tvs) : tvs.length = (ls.filter isValsB).length := by
  have h1 := seqOpt_length h
  rw [List.length_map, length_idxWhere] at h1
  exact h1

theorem extract_energies_length {tvs : List String} {etoks : List String}
    (h : extract_energies tvs = some etoks) : etoks.length = tvs.length := by
  have h1 := seqOpt_length h
  rw [List.length_map] at h1
  exact h1

theorem extract_errors_length {tvs : List String} {rtoks : List String}
    (h : extract_errors tvs = some rtoks) : rtoks.length = tvs.length := by
  have h1 := seqOpt_length h
  rw [List.length_map] at h1
  exact h1

theorem seqOpt_map_length {α β : Type} {f : α → Option β} {l : List α} {r : List β}
    (h : seqOpt (l.map f) = some r) : r.length = l.length := by
  have h1 := seqOpt_length h
  rw [List.length_map] at h1
  exact h1

theorem process_one_file_some_parts {name : String} {raw : List String} {df : DataFrame}
    (h : process_one_file name raw = some df) :
    ∃ v p tvs tns etoks ens rtoks ers,
      extract_version (remove_blank_lines raw) = some v ∧
      extract_particles (remove_blank_lines raw) = some p ∧
      extract_tally_values (remove_blank_lines raw) = some tvs ∧
      extract_tally_names (remove_blank_lines raw) = some tns ∧
      extract_energies tvs = some etoks ∧
      seqOpt (etoks.map pyFloat) = some ens ∧
      extract_errors tvs = some rtoks ∧
      seqOpt (rtoks.map pyFloat) = some ers ∧
      df.names = Cell.ofStr (splitextBase name) :: tns.map Cell.ofStr ∧
      df.values = Cell.ofStr v :: ens.map Cell.ofFloat ∧
      df.errors = Cell.ofStr p :: ers.map Cell.ofFloat ∧
      tns.length = ens.length ∧ tns.length = ers.length := by
  simp only [process_one_file, Option.bind_eq_some] at h
  obtain ⟨v, hv, p, hp, tvs, htvs, tns, htns, etoks, hetoks, ens, hens, rtoks, hrtoks,
    ers, hers, hdf⟩ := h
  obtain ⟨hn, hvals, herr, hl1, hl2⟩ := mkDataFrame_some hdf
  refine ⟨v, p, tvs, tns, etoks, ens, rtoks, ers, hv, hp, htvs, htns, hetoks, hens,
    hrtoks, hers, hn, hvals, herr, ?_, ?_⟩
  · have := hl1
    simp only [List.length_cons, List.length_map] at this
    omega
  · have := hl2
    simp only [List.length_cons, List.length_map] at this
    omega

theorem mem_insertFile {x y : String × List String} :
    ∀ {l : List (String × List String)}, y ∈ insertFile x l ↔ y = x ∨ y ∈ l := by
  intro l
  induction l with
  | nil => simp [insertFile]
  | cons a tl ih =>
    simp only [insertFile]
    split
    · simp [List.mem_cons]
    · simp only [List.mem_cons, ih]
      tauto

theorem mem_sortFiles {x : String × List String} :
    ∀ {l : List (String × List String)}, x ∈ l → x ∈ sortFiles l := by
  intro l
  induction l with
  | nil => intro h; simp at h
  | cons a tl ih =>
    intro h
    rcases List.mem_cons.mp h with rfl | h2
    · exact mem_insertFile.mpr (Or.inl rfl)
    · exact mem_insertFile.mpr (Or.inr (ih h2))

theorem process_files_none_of_mem {dir : List (String × List String)} {name : String}
    {raw : List String} (hmem : (name, raw) ∈ dir)
    (hext : strEndsWith name ".mctal" = true)
    (hfail : process_one_file name raw = none) : process_files dir = none := by
  have h1 : (name, raw) ∈ dir.filter (fun f => strEndsWith f.1 ".mctal") :=
    List.mem_filter.mpr ⟨hmem, hext⟩
  have h2 : (name, raw) ∈ sortFiles (dir.filter (fun f => strEndsWith f.1 ".mctal")) :=
    mem_sortFiles h1
  have h3 : (none : Option DataFrame) ∈
      (sortFiles (dir.filter (fun f => strEndsWith f.1 ".mctal"))).map
        (fun f => process_one_file f.1 f.2) := by
    rw [List.mem_map]
    exact ⟨(name, raw), h2, hfail⟩
  exact seqOpt_eq_none_of_mem h3

theorem extract_tally_names_none_of {ls : List String} {i : Nat} {l : String}
    (hget : ls.get? i = some l) (hp : hasTallyB l = true) (hlen : ls.length ≤ i + 2) :
    extract_tally_names ls = none := by
  have hidx : i ∈ idxWhere hasTallyB ls 0 := mem_idxWhere.mpr ⟨i, l, hget, hp, by omega⟩
  have hnone : (none : Option String) ∈
      (idxWhere hasTallyB ls 0).map (fun j => ls.get? (j + 2)) := by
    rw [List.mem_map]
    exact ⟨i, hidx, List.get?_eq_none.mpr hlen⟩
  exact seqOpt_eq_none_of_mem hnone

theorem extract_tally_values_none_of {ls : List String} {i : Nat} {l : String}
    (hget : ls.get? i = some l) (hp : isValsB l = true) (hlen : ls.length ≤ i + 1) :
    extract_tally_values ls = none := by
  have hidx : i ∈ idxWhere isValsB ls 0 := mem_idxWhere.mpr ⟨i, l, hget, hp, by omega⟩
  have hnone : (none : Option String) ∈
      (idxWhere isValsB ls 0).map (fun j => ls.get? (j + 1)) := by
    rw [List.mem_map]
    exact ⟨i, hidx, List.get?_eq_none.mpr hlen⟩
  exact seqOpt_eq_none_of_mem hnone

theorem extract_tally_names_some_of {ls : List String}
    (h : ∀ i l, ls.get? i = some l → hasTallyB l = true → i + 2 < ls.length) :
    ∃ tns, extract_tally_names ls = some tns ∧ tns.length = (ls.filter hasTallyB).length := by
  have hall : ∀ o ∈ (idxWhere hasTallyB ls 0).map (fun j => ls.get? (j + 2)),
      o.isSome = true := by
    intro o ho
    rw [List.mem_map] at ho
    obtain ⟨j, hj, rfl⟩ := ho
    obtain ⟨m, x, hget, hp, hje⟩ := mem_idxWhere.mp hj
    obtain rfl : j = m := by omega
    rw [List.get?_eq_get (h j x hget hp)]
    rfl
  obtain ⟨tns, htns⟩ := seqOpt_isSome_of_all hall
  exact ⟨tns, htns, extract_tally_names_length htns⟩

theorem extract_tally_values_some_of {ls : List String}
    (h : ∀ i l, ls.get? i = some l → isValsB l = true → i + 1 < ls.length) :
    ∃ tvs, extract_tally_values ls = some tvs ∧ tvs.length = (ls.filter isValsB).length := by
  have hall : ∀ o ∈ (idxWhere isValsB ls 0).map (fun j => ls.get? (j + 1)),
      o.isSome = true := by
    intro o ho
    rw [List.mem_map] at ho
    obtain ⟨j, hj, rfl⟩ := ho
    obtain ⟨m, x, hget, hp, hje⟩ := mem_idxWhere.mp hj
    obtain rfl : j = m := by omega
    rw [List.get?_eq_get (h j x hget hp)]
    rfl
  obtain ⟨tvs, htvs⟩ := seqOpt_isSome_of_all hall
  exact ⟨tvs, htvs, extract_tally_values_length htvs⟩

theorem process_one_file_none_of_names {name : String} {raw : List String}
    (h : extract_tally_names (remove_blank_lines raw) = none ∨
      extract_tally_values (remove_blank_lines raw) = none) :
    process_one_file name raw = none := by
  cases hpf : process_one_file name raw with
  | none => rfl
  | some df =>
    obtain ⟨v, p, tvs, tns, etoks, ens, rtoks, ers, hv, hp, htvs, htns, -⟩ :=
      process_one_file_some_parts hpf
    rcases h with h1 | h1
    · rw [h1] at htns; exact absurd htns (by simp)
    · rw [h1] at htvs; exact absurd htvs (by simp)

/-- Claim C1: for every value-block line whose whitespace tokenisation is
non-empty, `extract_energies` yields the first token and `extract_errors`
yields the last token; a value block with exactly one token yields the
same token as both energy and error. -/
theorem c1_value_block_first_last (v t : String) (ts : List String)
    (h : pySplit v = t :: ts) :
    extract_energies [v] = some [t] ∧
    extract_errors [v] = some [(t :: ts).getLast (List.cons_ne_nil t ts)] ∧
    (ts = [] → extract_errors [v] = some [t]) := by
  refine ⟨?_, ?_, ?_⟩
  · simp [extract_energies, seqOpt, h]
  · have hlast := List.getLast?_eq_getLast (t :: ts) (List.cons_ne_nil t ts)
    simp [extract_errors, seqOpt, h, hlast]
  · intro hnil
    subst hnil
    simp [extract_errors, seqOpt, h]

theorem c1_witness :
    extract_energies ["1.0 2.0 0.05"] = some ["1.0"] ∧
    extract_errors ["1.0 2.0 0.05"] = some ["0.05"] := by
  have h := c1_value_block_first_last "1.0 2.0 0.05" "1.0" ["2.0", "0.05"] (by decide)
  exact ⟨h.1, h.2.1.trans (by decide)⟩

/-- Claim C2 counterexample: a normalized first line consisting of the
standalone 8-digit token `12345678` yields the sentinel, not the `NPS:`
label, because the regex `\s(\d{8,11})\s` demands a whitespace character
on both sides of the digit run and the stripped line has none. -/
theorem c2_counterexample :
    extract_particles ["12345678"] = some "Particles not found" ∧
    extract_particles ["12345678"] ≠ some "NPS: 12345678" := by
  exact ⟨by decide, by decide⟩

/-- Claim C2 (amended): `extract_particles` returns `NPS: <digits>` when
the first line contains a run of 8 to 11 decimal digits with a whitespace
character immediately before and immediately after it, and the sentinel
`Particles not found` when no such flanked run exists (in particular for
a stripped line consisting solely of an 8-digit token). -/
theorem c2_particle_detection (first : String) (rest : List String) :
    ((∃ ds, flankedIn first.data ds) →
      ∃ ds, flankedIn first.data ds ∧
        extract_particles (first :: rest) = some ("NPS: " ++ String.mk ds)) ∧
    ((¬ ∃ ds, flankedIn first.data ds) →
      extract_particles (first :: rest) = some "Particles not found") := by
  constructor
  · rintro ⟨ds, hds⟩
    have hsome := searchNPS_isSome_of hds
    obtain ⟨ds0, hds0⟩ := Option.isSome_iff_exists.mp hsome
    refine ⟨ds0, searchNPS_some hds0, ?_⟩
    simp [extract_particles, hds0]
  · intro hno
    cases hs : searchNPS first.data with
    | some ds => exact absurd ⟨ds, searchNPS_some hs⟩ hno
    | none => simp [extract_particles, hs]

theorem c2_witness :
    ∃ ds, flankedIn ("a 12345678 b").data ds ∧
      extract_particles ["a 12345678 b"] = some ("NPS: " ++ String.mk ds) :=
  (c2_particle_detection "a 12345678 b" []).1
    ⟨"12345678".data, "a".data, ' ', ' ', "b".data,
      by decide, by decide, by decide, by decide, by decide, by decide⟩

/-- Claim C3: a `tally` line with fewer than two following lines makes
`extract_tally_names` fail, a final `vals` line makes
`extract_tally_values` fail, either failure aborts the whole run with no
output file, and when every match has the required following lines both
extractions succeed with one entry per match. -/
theorem c3_out_of_range (ls : List String) :
    ((∃ i l, ls.get? i = some l ∧ hasTallyB l = true ∧ ls.length ≤ i + 2) →
      extract_tally_names ls = none) ∧
    ((∃ i l, ls.get? i = some l ∧ isValsB l = true ∧ ls.length ≤ i + 1) →
      extract_tally_values ls = none) ∧
    ((extract_tally_names ls = none ∨ extract_tally_values ls = none) →
      ∀ name raw dir, remove_blank_lines raw = ls → (name, raw) ∈ dir →
        strEndsWith name ".mctal" = true → process_files dir = none) ∧
    ((∀ i l, ls.get? i = some l → hasTallyB l = true → i + 2 < ls.length) →
      ∃ tns, extract_tally_names ls = some tns ∧
        tns.length = (ls.filter hasTallyB).length) ∧
    ((∀ i l, ls.get? i = some l → isValsB l = true → i + 1 < ls.length) →
      ∃ tvs, extract_tally_values ls = some tvs ∧
        tvs.length = (ls.filter isValsB).length) := by
  refine ⟨?_, ?_, ?_, fun h => extract_tally_names_some_of h,
    fun h => extract_tally_values_some_of h⟩
  · rintro ⟨i, l, hget, hp, hlen⟩
    exact extract_tally_names_none_of hget hp hlen
  · rintro ⟨i, l, hget, hp, hlen⟩
    exact extract_tally_values_none_of hget hp hlen
  · intro hfail name raw dir hls hmem hext
    refine process_files_none_of_mem hmem hext (process_one_file_none_of_names ?_)
    rw [hls]
    exact hfail

theorem c3_witness :
    extract_tally_values ["vals"] = none ∧
    process_files [("a.mctal", ["vals"])] = none := by
  have h := c3_out_of_range ["vals"]
  have h2 : extract_tally_values ["vals"] = none := h.2.1 ⟨0, "vals", rfl, rfl, by decide⟩
  exact ⟨h2, h.2.2.1 (Or.inr h2) "a.mctal" ["vals"] [("a.mctal", ["vals"])]
    (by decide) (by decide) (by decide)⟩

/-- Claim C4: for every successfully processed file, the first `Names`
cell is the file's base name without extension, the first `Values` cell
is the version label, the first `Errors` cell is the particle-count
label, and the row count of every column is `1 +` the number of
extracted tally names. -/
theorem c4_per_file_table (name : String) (raw : List String) (df : DataFrame)
    (h : process_one_file name raw = some df) :
    df.names.head? = some (Cell.ofStr (splitextBase name)) ∧
    (∃ v, extract_version (remove_blank_lines raw) = some v ∧
      df.values.head? = some (Cell.ofStr v)) ∧
    (∃ p, extract_particles (remove_blank_lines raw) = some p ∧
      df.errors.head? = some (Cell.ofStr p)) ∧
    (∃ tns, extract_tally_names (remove_blank_lines raw) = some tns ∧
      df.names.length = 1 + tns.length ∧ df.values.length = df.names.length ∧
      df.errors.length = df.names.length) := by
  obtain ⟨v, p, tvs, tns, etoks, ens, rtoks, ers, hv, hp, htvs, htns, hetoks, hens,
    hrtoks, hers, hn, hvals, herr, hl1, hl2⟩ := process_one_file_some_parts h
  refine ⟨by rw [hn]; rfl, ⟨v, hv, by rw [hvals]; rfl⟩, ⟨p, hp, by rw [herr]; rfl⟩,
    ⟨tns, htns, ?_, ?_, ?_⟩⟩
  · rw [hn]
    simp only [List.length_cons, List.length_map]
    omega
  · rw [hvals, hn]
    simp only [List.length_cons, List.length_map]
    omega
  · rw [herr, hn]
    simp only [List.length_cons, List.length_map]
    omega

theorem c4_witness :
    ∃ df, process_one_file "run1.mctal"
        ["mcnpx version  12345678  x", "a tally 14", "b", "flux", "vals", "1.0 2.0 0.05"] =
        some df ∧
      df.names.head? = some (Cell.ofStr "run1") ∧
      df.values.head? = some (Cell.ofStr "MCNPX") ∧
      df.errors.head? = some (Cell.ofStr "NPS: 12345678") ∧
      df.names.length = 2 := by
  refine ⟨⟨[Cell.ofStr "run1", Cell.ofStr "flux"],
    [Cell.ofStr "MCNPX", Cell.ofFloat "1.0"],
    [Cell.ofStr "NPS: 12345678", Cell.ofFloat "0.05"]⟩, by decide, ?_⟩
  have h := c4_per_file_table "run1.mctal"
    ["mcnpx version  12345678  x", "a tally 14", "b", "flux", "vals", "1.0 2.0 0.05"]
    ⟨[Cell.ofStr "run1", Cell.ofStr "flux"],
      [Cell.ofStr "MCNPX", Cell.ofFloat "1.0"],
      [Cell.ofStr "NPS: 12345678", Cell.ofFloat "0.05"]⟩ (by decide)
  obtain ⟨h1, ⟨v, hv, h2⟩, ⟨p, hp, h3⟩, -⟩ := h
  obtain rfl : v = "MCNPX" := by
    have : some v = some "MCNPX" := by rw [← hv]; decide
    simpa using this
  obtain rfl : p = "NPS: 12345678" := by
    have : some p = some "NPS: 12345678" := by rw [← hp]; decide
    simpa using this
  exact ⟨h1.trans (by decide), h2, h3, by decide⟩

/-- Claim C5: `extract_version` inspects only the first line of a
non-empty normalized sequence and returns `MCNPX` on a case-insensitive
occurrence of `mcnpx`, otherwise `MCNP6` on a case-insensitive
occurrence of `mcnp` followed by whitespace and `6`, and otherwise the
sentinel `Version not found`, never failing. -/
theorem c5_version_detection (first : String) (rest : List String) :
    (mcnpxSpec first → extract_version (first :: rest) = some "MCNPX") ∧
    (¬ mcnpxSpec first → mcnp6Spec first → extract_version (first :: rest) = some "MCNP6") ∧
    (¬ mcnpxSpec first → ¬ mcnp6Spec first →
      extract_version (first :: rest) = some "Version not found") := by
  refine ⟨?_, ?_, ?_⟩
  · intro h
    have hb : hasSubstr "mcnpx".data (first.data.map Char.toLower) = true :=
      (hasSubstr_iff _ _).mpr h
    simp [extract_version, hb]
  · intro hnx h6
    have hb : hasSubstr "mcnpx".data (first.data.map Char.toLower) = false := by
      cases hc : hasSubstr "mcnpx".data (first.data.map Char.toLower) with
      | true => exact absurd ((hasSubstr_iff _ _).mp hc) hnx
      | false => rfl
    have hb6 : searchMcnp6 (first.data.map Char.toLower) = true := (searchMcnp6_iff _).mpr h6
    simp [extract_version, hb, hb6]
  · intro hnx hn6
    have hb : hasSubstr "mcnpx".data (first.data.map Char.toLower) = false := by
      cases hc : hasSubstr "mcnpx".data (first.data.map Char.toLower) with
      | true => exact absurd ((hasSubstr_iff _ _).mp hc) hnx
      | false => rfl
    have hb6 : searchMcnp6 (first.data.map Char.toLower) = false := by
      cases hc : searchMcnp6 (first.data.map Char.toLower) with
      | true => exact absurd ((searchMcnp6_iff _).mp hc) hn6
      | false => rfl
    simp [extract_version, hb, hb6]

theorem c5_witness : extract_version ["MCNPx test"] = some "MCNPX" :=
  (c5_version_detection "MCNPx test" []).1 ⟨[], " test".data, by decide⟩

/-- Claim C6: if processing any `.mctal` file of the directory fails,
the whole batch aborts before the export step and no output spreadsheet
is written, discarding the tables accumulated for the other files. -/
theorem c6_batch_abort (dir : List (String × List String)) (name : String)
    (raw : List String) (hmem : (name, raw) ∈ dir)
    (hext : strEndsWith name ".mctal" = true)
    (hfail : process_one_file name raw = none) : process_files dir = none :=
  process_files_none_of_mem hmem hext hfail

theorem c6_witness :
    process_files [("a.mctal", []), ("b.mctal", ["mcnp 6  12345678 "])] = none :=
  c6_batch_abort [("a.mctal", []), ("b.mctal", ["mcnp 6  12345678 "])] "a.mctal" []
    (by decide) (by decide) (by decide)

/-- Claim C7: `remove_blank_lines` is idempotent. -/
theorem c7_remove_blank_lines_idem (ls : List String) :
    remove_blank_lines (remove_blank_lines ls) = remove_blank_lines ls := by
  apply rbl_fixed
  intro x hx
  simp only [remove_blank_lines, List.mem_map, List.mem_filter] at hx
  obtain ⟨y, ⟨-, hcond⟩, rfl⟩ := hx
  exact ⟨pyStrip_idem y, by simpa using hcond⟩

/-- Claim C8 counterexample: on the input list `[""]`, whose single
string has no whitespace tokens, both extractions fail (modelling the
`IndexError` of `"".split()[0]`) and produce no sequence at all, so the
lengths cannot match the input length. -/
theorem c8_counterexample :
    extract_energies [""] = none ∧ extract_errors [""] = none :=
  ⟨by decide, by decide⟩

/-- Claim C8 (amended): for every list of strings each of which has at
least one whitespace token, `extract_energies` and `extract_errors`
succeed and return sequences of the same length as the input. -/
theorem c8_length_preservation (tvs : List String)
    (h : ∀ v ∈ tvs, pySplit v ≠ []) :
    ∃ es rs, extract_energies tvs = some es ∧ extract_errors tvs = some rs ∧
      es.length = tvs.length ∧ rs.length = tvs.length := by
  have hE : ∀ o ∈ tvs.map (fun v => (pySplit v).head?), o.isSome = true := by
    intro o ho
    rw [List.mem_map] at ho
    obtain ⟨v, hv, rfl⟩ := ho
    cases hs : pySplit v with
    | nil => exact absurd hs (h v hv)
    | cons a tl => rfl
  have hR : ∀ o ∈ tvs.map (fun v => (pySplit v).getLast?), o.isSome = true := by
    intro o ho
    rw [List.mem_map] at ho
    obtain ⟨v, hv, rfl⟩ := ho
    cases hs : pySplit v with
    | nil => exact absurd hs (h v hv)
    | cons a tl =>
      rw [List.getLast?_eq_getLast (a :: tl) (List.cons_ne_nil a tl)]
      rfl
  obtain ⟨es, hes⟩ := seqOpt_isSome_of_all hE
  obtain ⟨rs, hrs⟩ := seqOpt_isSome_of_all hR
  exact ⟨es, rs, hes, hrs, seqOpt_map_length hes, seqOpt_map_length hrs⟩

theorem c8_witness :
    ∃ es rs, extract_energies ["1.0 2.0 0.05", "7"] = some es ∧
      extract_errors ["1.0 2.0 0.05", "7"] = some rs ∧
      es.length = 2 ∧ rs.length = 2 :=
  c8_length_preservation ["1.0 2.0 0.05", "7"] (by decide)

/-- Claim C9: when the number of normalized lines containing `tally`
differs from the number of lines equal to `vals`, the per-file table
construction fails and the whole run aborts with no output file; a
per-file table is only ever built when the two match counts agree. -/
theorem c9_count_mismatch (name : String) (raw : List String) :
    ((((remove_blank_lines raw).filter hasTallyB).length ≠
        ((remove_blank_lines raw).filter isValsB).length →
      process_one_file name raw = none ∧
      ∀ dir, (name, raw) ∈ dir → strEndsWith name ".mctal" = true →
        process_files dir = none)) ∧
    (∀ df, process_one_file name raw = some df →
      ((remove_blank_lines raw).filter hasTallyB).length =
        ((remove_blank_lines raw).filter isValsB).length) := by
  have key : ∀ df, process_one_file name raw = some df →
      ((remove_blank_lines raw).filter hasTallyB).length =
        ((remove_blank_lines raw).filter isValsB).length := by
    intro df h
    obtain ⟨v, p, tvs, tns, etoks, ens, rtoks, ers, hv, hp, htvs, htns, hetoks, hens,
      hrtoks, hers, hn, hvals, herr, hl1, hl2⟩ := process_one_file_some_parts h
    have e1 := extract_tally_names_length htns
    have e2 := extract_tally_values_length htvs
    have e3 := extract_energies_length hetoks
    have e4 := seqOpt_map_length hens
    omega
  constructor
  · intro hne
    have hnone : process_one_file name raw = none := by
      cases hpf : process_one_file name raw with
      | none => rfl
      | some df => exact absurd (key df hpf) hne
    exact ⟨hnone, fun dir hmem hext => process_files_none_of_mem hmem hext hnone⟩
  · exact key

theorem c9_witness :
    process_one_file "t.mctal" ["x tally q", "b", "nm"] = none ∧
    process_files [("t.mctal", ["x tally q", "b", "nm"])] = none := by
  have h := (c9_count_mismatch "t.mctal" ["x tally q", "b", "nm"]).1 (by decide)
  exact ⟨h.1, h.2 [("t.mctal", ["x tally q", "b", "nm"])] (by decide) (by decide)⟩

/-- Claim C10: a file whose lines are all blank or whitespace-only
normalises to the empty sequence, on which version and particle
extraction fail (modelling the `IndexError` of `file_lines[0]`), the
sentinels are never produced, and the whole run aborts with no output
file. -/
theorem c10_blank_file (name : String) (raw : List String)
    (h : ∀ l ∈ raw, pyStrip l = "") :
    remove_blank_lines raw = [] ∧
    extract_version (remove_blank_lines raw) = none ∧
    extract_particles (remove_blank_lines raw) = none ∧
    extract_version (remove_blank_lines raw) ≠ some "Version not found" ∧
    extract_particles (remove_blank_lines raw) ≠ some "Particles not found" ∧
    process_one_file name raw = none ∧
    (∀ dir, (name, raw) ∈ dir → strEndsWith name ".mctal" = true →
      process_files dir = none) := by
  have hnil : remove_blank_lines raw = [] := by
    rw [remove_blank_lines]
    have hf : raw.filter (fun l => pyStrip l != "") = [] := by
      rw [List.filter_eq_nil_iff]
      intro a ha
      simp [h a ha]
    rw [hf]
    rfl
  have hv : extract_version (remove_blank_lines raw) = none := by rw [hnil]; rfl
  have hp : extract_particles (remove_blank_lines raw) = none := by rw [hnil]; rfl
  have hnone : process_one_file name raw = none := by
    cases hpf : process_one_file name raw with
    | none => rfl
    | some df =>
      obtain ⟨v, p, tvs, tns, etoks, ens, rtoks, ers, hvv, -⟩ :=
        process_one_file_some_parts hpf
      rw [hv] at hvv
      exact absurd hvv (by simp)
  exact ⟨hnil, hv, hp, by rw [hv]; simp, by rw [hp]; simp, hnone,
    fun dir hmem hext => process_files_none_of_mem hmem hext hnone⟩

theorem c10_witness :
    remove_blank_lines ["   ", "", "\t"] = [] ∧
    process_one_file "b.mctal" ["   ", "", "\t"] = none := by
  have h := c10_blank_file "b.mctal" ["   ", "", "\t"] (by decide)
  exact ⟨h.1, h.2.2.2.2.2.1⟩
